import Mathlib

/-!
Verification of the fuzzy-filter / highlight / selection core of
`pulsar-select-list` (src/lib/main.js), shallowly embedded in Lean.

Modelling conventions:
* JS strings are `String` / `List Char`; JS numbers that carry scores are
  `Rat` (the claims under scrutiny are order-theoretic and do not depend on
  floating-point rounding); JS array indices are `Int` (they may be negative).
* A DOM `DocumentFragment` produced by `highlightMatches` is modelled as the
  list of its runs: a text node is an unhighlighted `Run`, a
  `span.character-match` a highlighted `Run`.
* `atom.ui.fuzzyMatcher.match`, the caller-supplied key extractor and score
  modifier are external collaborators injected through `props`; they are
  modelled as function-valued fields, so theorems quantify over every
  possible collaborator.
* `undefined` becomes `none`; a thrown exception becomes an `Option String`
  error component returned beside the (unmutated) state.
-/

/-- One run of `highlightMatches` output: a maximal stretch of characters
rendered either as a plain text node (`highlighted = false`) or as a
`span.character-match` element (`highlighted = true`). -/
structure Run where
  text : List Char
  highlighted : Bool
deriving DecidableEq, Repr

/-- The concatenated text of a fragment's runs, in order. -/
def runsText (rs : List Run) : List Char :=
  (rs.map Run.text).flatten

/-- JS `text.slice(a, b)` on a string viewed as a char list. -/
def sliceList (text : List Char) (a b : Nat) : List Char :=
  (text.take b).drop a

/-- The `for (const index of validIndices)` loop of `highlightMatches`
(src/lib/main.js lines 38-65), with the two trailing flushes folded into the
base case.  State: remaining indices, `lastIndex`, the pending `matchChars`,
and the fragment built so far. -/
def hmLoop (text : List Char) : List Nat → Nat → List Char → List Run → List Run
  | [], lastIndex, matchChars, acc =>
      let acc := if matchChars.isEmpty then acc else acc ++ [⟨matchChars, true⟩]
      if lastIndex < text.length then acc ++ [⟨text.drop lastIndex, false⟩] else acc
  | index :: rest, lastIndex, matchChars, acc =>
      if lastIndex < index then
        let acc := if matchChars.isEmpty then acc else acc ++ [⟨matchChars, true⟩]
        let acc := acc ++ [⟨sliceList text lastIndex index, false⟩]
        hmLoop text rest (index + 1) [text.getD index default] acc
      else
        hmLoop text rest (index + 1) (matchChars ++ [text.getD index default]) acc

/-- `SelectListView.highlightMatches(text, matchIndices)`
(src/lib/main.js lines 21-68): empty or all-invalid index lists yield one
plain run; otherwise invalid indices (negative or `>= text.length`) are
filtered out and the run-building loop processes the remainder in the order
given. -/
def highlightMatches (text : List Char) (matchIndices : List Int) : List Run :=
  if matchIndices.isEmpty then [⟨text, false⟩]
  else
    let validIndices :=
      (matchIndices.filter (fun i => decide (0 ≤ i ∧ i < (text.length : Int)))).map Int.toNat
    if validIndices.isEmpty then [⟨text, false⟩]
    else hmLoop text validIndices 0 [] []

/-- Modelled from the spec: the platform builtin `String.normalize('NFD')`
used by `replaceDiacritics` is not repository code; it is modelled by its
canonical-decomposition table restricted to the Latin precomposed letters
relevant here.  Every character outside the table decomposes to itself. -/
def nfdTable : List (Char × List Char) :=
  [ ('à', ['a', '\u0300']), ('á', ['a', '\u0301']), ('â', ['a', '\u0302']),
    ('ã', ['a', '\u0303']), ('ä', ['a', '\u0308']),
    ('è', ['e', '\u0300']), ('é', ['e', '\u0301']), ('ê', ['e', '\u0302']),
    ('ë', ['e', '\u0308']),
    ('ì', ['i', '\u0300']), ('í', ['i', '\u0301']), ('î', ['i', '\u0302']),
    ('ï', ['i', '\u0308']),
    ('ò', ['o', '\u0300']), ('ó', ['o', '\u0301']), ('ô', ['o', '\u0302']),
    ('õ', ['o', '\u0303']), ('ö', ['o', '\u0308']),
    ('ù', ['u', '\u0300']), ('ú', ['u', '\u0301']), ('û', ['u', '\u0302']),
    ('ü', ['u', '\u0308']),
    ('ç', ['c', '\u0327']), ('ñ', ['n', '\u0303']), ('ý', ['y', '\u0301']) ]

/-- Canonical decomposition of one character (table lookup, identity
outside the table). -/
def nfdChar (c : Char) : List Char :=
  match nfdTable.lookup c with
  | some ds => ds
  | none => [c]

/-- Modelled from the spec: `str.normalize('NFD')` over the modelled
repertoire — canonical decomposition applied characterwise. -/
def nfd (l : List Char) : List Char :=
  l.flatMap nfdChar

/-- The combining-mark test of the regex `/[\u0300-\u036f]/`. -/
def isCombiningMark (c : Char) : Bool :=
  decide (0x300 ≤ c.toNat) && decide (c.toNat ≤ 0x36F)

/-- `.replace(/[\u0300-\u036f]/g, '')`: drop every combining mark. -/
def stripCombining (l : List Char) : List Char :=
  l.filter (fun c => !isCombiningMark c)

/-- `SelectListView.replaceDiacritics` on the char-list level: decompose,
then strip the combining marks. -/
def replaceDiacriticsL (l : List Char) : List Char :=
  stripCombining (nfd l)

/-- `SelectListView.replaceDiacritics(str)` (src/lib/main.js lines 16-19):
`if (!str) return ''` then `str.normalize('NFD').replace(/[\u0300-\u036f]/g, '')`. -/
def replaceDiacritics (s : String) : String :=
  if s = "" then "" else ⟨replaceDiacriticsL s.data⟩

/-- One scored entry of `fuzzyFilter`'s `scoredItems` array:
`{item, score, matchIndexes}` (src/lib/main.js line 612). -/
structure Scored (α : Type) where
  item : α
  score : Rat
  matchIndexes : List Int
deriving DecidableEq

/-- The props `fuzzyFilter` consults (src/lib/main.js lines 586-621).
`filterKeyForItem` is total: when the caller supplies no hook the items are
themselves strings and the hook is the identity.  `matcher` stands for the
external collaborator `atom.ui.fuzzyMatcher.match` called with
`recordMatchIndexes: true`: `none` models a falsy result (no match),
`some (score, matchIndexes)` a match result. -/
structure FilterProps (α : Type) where
  filterKeyForItem : α → String
  filterScoreModifier : Option (Rat → α → Rat)
  filterThreshold : Rat
  replaceDiacritics : Bool
  matcher : String → String → Option (Rat × List Int)

/-- The filter key the loop body derives for an item: caller hook, then
optional diacritic folding. -/
def keyFor (p : FilterProps α) (item : α) : String :=
  let s := p.filterKeyForItem item
  if p.replaceDiacritics then replaceDiacritics s else s

/-- The query after the one-time diacritic folding at the top of
`fuzzyFilter`. -/
def processedQuery (p : FilterProps α) (query : String) : String :=
  if p.replaceDiacritics then replaceDiacritics query else query

/-- `modifyScore ? modifyScore(score, item) : score`. -/
def applyModifier (p : FilterProps α) (score : Rat) (item : α) : Rat :=
  match p.filterScoreModifier with
  | some m => m score item
  | none => score

/-- One iteration of the `for (const item of items)` loop: `none` when the
item is skipped (`!result`) or fails the threshold test, `some` the pushed
scored entry otherwise. -/
def scoreItem (p : FilterProps α) (q : String) (item : α) : Option (Scored α) :=
  match p.matcher (keyFor p item) q with
  | none => none
  | some r =>
      let score := applyModifier p r.1 item
      if score > p.filterThreshold then some ⟨item, score, r.2⟩ else none

/-- The post-modifier score of an item, when the matcher matches its key. -/
def postScore (p : FilterProps α) (q : String) (item : α) : Option Rat :=
  (p.matcher (keyFor p item) q).map (fun r => applyModifier p r.1 item)

/-- `scoredItems` in input order, before the sort. -/
def fuzzyFilterScored (p : FilterProps α) (items : List α) (q : String) : List (Scored α) :=
  items.filterMap (scoreItem p q)

/-- Stable descending insertion: the element being inserted comes from
earlier in the input than everything already placed, so on equal scores it
goes first.  This is the unique stable sort for the JS comparator
`(a, b) => b.score - a.score` (ECMAScript `Array.prototype.sort` is
stable). -/
def insertScoredDesc (x : Scored α) : List (Scored α) → List (Scored α)
  | [] => [x]
  | y :: ys => if y.score ≤ x.score then x :: y :: ys else y :: insertScoredDesc x ys

/-- `scoredItems.sort((a, b) => b.score - a.score)` as a stable descending
sort. -/
def sortScoredDesc : List (Scored α) → List (Scored α)
  | [] => []
  | x :: xs => insertScoredDesc x (sortScoredDesc xs)

/-- `fuzzyFilter(items, query)` (src/lib/main.js lines 586-621).  Returns
the filtered item list together with the `matchIndicesMap` entries the pass
populates (an association list in the order `Map.set` is called, i.e. the
sorted order). -/
def fuzzyFilter (p : FilterProps α) (items : List α) (query : String) :
    List α × List (α × List Int) :=
  if query.length = 0 then (items, [])
  else
    let q := processedQuery p query
    let sorted := sortScoredDesc (fuzzyFilterScored p items q)
    (sorted.map Scored.item, sorted.map (fun e => (e.item, e.matchIndexes)))

/-- The one prop the selection operations consult: whether the caller
configured a `didChangeSelection` notifier. -/
structure SelProps where
  hasDidChangeSelection : Bool
deriving DecidableEq

/-- The selection-relevant component state: `this.items` and
`this.selectionIndex` (`none` = `undefined`). -/
structure SLState (α : Type) where
  items : List α
  selectionIndex : Option Int
deriving DecidableEq

/-- The index normalisation at the top of `selectIndex`
(src/lib/main.js lines 668-672).  In JS, `undefined >= length` and
`undefined < 0` are both false, so `undefined` passes through. -/
def resolveIndex (len : Nat) (index : Option Int) : Option Int :=
  match index with
  | none => none
  | some i =>
      if i ≥ (len : Int) then some 0
      else if i < 0 then some ((len : Int) - 1)
      else some i

/-- JS subscripting `l[i]` with a possibly out-of-range or negative number:
`undefined` (= `none`) outside `[0, length)`. -/
def jsIndex (l : List α) (i : Int) : Option α :=
  if i < 0 then none else l.get? i.toNat

/-- `getSelectedItem()` (src/lib/main.js lines 627-630). -/
def getSelectedItem (s : SLState α) : Option α :=
  match s.selectionIndex with
  | none => none
  | some i => jsIndex s.items i

/-- `selectIndex(index)` (src/lib/main.js lines 667-692): wrap the index,
store it, and invoke `didChangeSelection` (second component: the list of
notifications emitted, each carrying `getSelectedItem()`) whenever the
resolved index is defined and the notifier prop is present. -/
def selectIndex (p : SelProps) (s : SLState α) (index : Option Int) :
    SLState α × List (Option α) :=
  let r := resolveIndex s.items.length index
  let s' : SLState α := ⟨s.items, r⟩
  (s', if r.isSome && p.hasDidChangeSelection then [getSelectedItem s'] else [])

/-- `selectFirst()`. -/
def selectFirst (p : SelProps) (s : SLState α) : SLState α × List (Option α) :=
  selectIndex p s (some 0)

/-- `selectLast()`. -/
def selectLast (p : SelProps) (s : SLState α) : SLState α × List (Option α) :=
  selectIndex p s (some ((s.items.length : Int) - 1))

/-- `selectNone()`. -/
def selectNone (p : SelProps) (s : SLState α) : SLState α × List (Option α) :=
  selectIndex p s none

/-- `selectPrevious()` (src/lib/main.js lines 645-648). -/
def selectPrevious (p : SelProps) (s : SLState α) : SLState α × List (Option α) :=
  match s.selectionIndex with
  | none => selectLast p s
  | some i => selectIndex p s (some (i - 1))

/-- `selectNext()` (src/lib/main.js lines 650-653). -/
def selectNext (p : SelProps) (s : SLState α) : SLState α × List (Option α) :=
  match s.selectionIndex with
  | none => selectFirst p s
  | some i => selectIndex p s (some (i + 1))

/-- JS `Array.prototype.indexOf`: the first index of `a`, or `-1`. -/
def jsIndexOf [DecidableEq α] (l : List α) (a : α) : Int :=
  match l with
  | [] => -1
  | x :: xs =>
      if x = a then 0
      else
        let r := jsIndexOf xs a
        if r = -1 then -1 else r + 1

/-- `selectItem(item)` (src/lib/main.js lines 694-701).  The `throw` happens
before any mutation, so the error case returns the state untouched together
with the error message; the success case defers to `selectIndex`. -/
def selectItem [DecidableEq α] (p : SelProps) (s : SLState α) (item : α) :
    (SLState α × List (Option α)) × Option String :=
  let index := jsIndexOf s.items item
  if index = -1 then
    ((s, []), some "Cannot select the specified item because it does not exist.")
  else
    (selectIndex p s (some index), none)

/-- The props `computeItems` consults beyond the filter props
(src/lib/main.js lines 569-584): the optional `order` comparator, the
optional `maxResults` cap (a JS falsy `0` disables it, like absence), the
`initialSelectionIndex`, and whether a `didChangeSelection` notifier is
configured. -/
structure ComputeProps (α : Type) extends FilterProps α where
  order : Option (α → α → Rat)
  maxResults : Option Nat
  initialSelectionIndex : Int
  hasDidChangeSelection : Bool

/-- Stable insertion for a JS comparator: the inserted element precedes the
first element it compares `<= 0` against. -/
def insertCmp (cmp : α → α → Rat) (x : α) : List α → List α
  | [] => [x]
  | y :: ys => if cmp x y ≤ 0 then x :: y :: ys else y :: insertCmp cmp x ys

/-- `this.items.sort(this.props.order)` as a stable sort by the caller's
comparator. -/
def sortCmp (cmp : α → α → Rat) : List α → List α
  | [] => []
  | x :: xs => insertCmp cmp x (sortCmp cmp xs)

/-- `if (this.props.order) this.items.sort(this.props.order)`. -/
def applyOrder (order : Option (α → α → Rat)) (l : List α) : List α :=
  match order with
  | some cmp => sortCmp cmp l
  | none => l

/-- `if (this.props.maxResults) this.items = this.items.slice(0, maxResults)`
(`0` is falsy, so a zero cap truncates nothing). -/
def applyMaxResults (maxResults : Option Nat) (l : List α) : List α :=
  match maxResults with
  | some m => if m = 0 then l else l.take m
  | none => l

/-- `computeItems()` (src/lib/main.js lines 569-584) along the default
filter path: reset the match-index cache, run `fuzzyFilter` over (a copy
of) `props.items`, apply the order comparator and the `maxResults` cap, and
reselect `initialSelectionIndex`.  Returns the new selection state, the
cache entries of the pass and the emitted selection notifications. -/
def computeItems (p : ComputeProps α) (prior : SLState α) (propsItems : List α)
    (query : String) : SLState α × List (α × List Int) × List (Option α) :=
  let fr := fuzzyFilter p.toFilterProps propsItems query
  let items2 := applyMaxResults p.maxResults (applyOrder p.order fr.1)
  let r := selectIndex ⟨p.hasDidChangeSelection⟩ ⟨items2, prior.selectionIndex⟩
      (some p.initialSelectionIndex)
  (r.1, fr.2, r.2)

/-- A heap of JS arrays, indexed by reference.  Used to make the in-place
mutations of `computeItems` (`this.items.sort`) observable, so that the
frame property "`props.items` is never mutated" has content. -/
structure Store (α : Type) where
  arrays : List (List α)
deriving DecidableEq

/-- Allocate a fresh array (e.g. `slice()`, or the array literal a `.map`
builds) and return its reference. -/
def allocA (st : Store α) (l : List α) : Store α × Nat :=
  (⟨st.arrays ++ [l]⟩, st.arrays.length)

/-- Read the array behind a reference. -/
def readA (st : Store α) (r : Nat) : List α :=
  st.arrays.getD r []

/-- Overwrite the array behind a reference (in-place mutation, e.g.
`Array.prototype.sort`). -/
def writeA (st : Store α) (r : Nat) (l : List α) : Store α :=
  ⟨st.arrays.set r l⟩

/-- `computeItems` at the level of array references (default filter path):
`props.items.slice()` allocates a copy; `fuzzyFilter` returns that very
array for the empty query and a fresh array (`scoredItems.map(...)`)
otherwise; `sort(order)` mutates `this.items` in place; the `maxResults`
`slice(0, m)` allocates again.  Returns the store and the reference
`this.items` ends up holding. -/
def computeItemsStore (p : ComputeProps α) (st : Store α) (propsRef : Nat)
    (query : String) : Store α × Nat :=
  let a := allocA st (readA st propsRef)
  let b :=
    if query.length = 0 then a
    else allocA a.1 (fuzzyFilter p.toFilterProps (readA st propsRef) query).1
  let c :=
    match p.order with
    | some cmp => (writeA b.1 b.2 (sortCmp cmp (readA b.1 b.2)), b.2)
    | none => b
  match p.maxResults with
  | some m => if m = 0 then c else allocA c.1 ((readA c.1 c.2).take m)
  | none => c

/-- The invariant the spec claims for the selection index: `undefined`, or
inside `[0, len(resultSet))`. -/
def selectionInRange (s : SLState α) : Prop :=
  match s.selectionIndex with
  | none => True
  | some j => 0 ≤ j ∧ j < (s.items.length : Int)

/-- What a resolved index actually satisfies in the code: on a non-empty
list it is in range, on an empty list a defined request resolves to `0`
(request `>= 0`) or `-1` (request `< 0`). -/
def resolvedOk (len : Nat) (r : Option Int) : Prop :=
  match r with
  | none => True
  | some j => if len = 0 then j = 0 ∨ j = -1 else 0 ≤ j ∧ j < (len : Int)

/-- The amended selection invariant, stated on a whole state. -/
def selectionInvariant (s : SLState α) : Prop :=
  resolvedOk s.items.length s.selectionIndex

/-- A concrete matcher for ground instances: matches whenever the query is
no longer than the text, scoring the text's length. -/
def demoMatcher : String → String → Option (Rat × List Int) :=
  fun t q => if q.length ≤ t.length then some ((t.length : Rat), [0]) else none

/-- Ground filter props over string items. -/
def demoProps : FilterProps String :=
  { filterKeyForItem := id
    filterScoreModifier := none
    filterThreshold := 0
    replaceDiacritics := false
    matcher := demoMatcher }

/-- Ground compute props over string items. -/
def demoCompute : ComputeProps String :=
  { toFilterProps := demoProps
    order := none
    maxResults := none
    initialSelectionIndex := 0
    hasDidChangeSelection := true }

/-- Ground selection props. -/
def demoSel : SelProps := ⟨false⟩

/-- Ground selection state with three items and nothing selected. -/
def demoState : SLState String := ⟨["x", "y", "z"], none⟩

/-- Ground selection props with a `didChangeSelection` notifier configured. -/
def demoSelNotify : SelProps := ⟨true⟩

theorem runsText_append (a b : List Run) :
    runsText (a ++ b) = runsText a ++ runsText b := by
  simp [runsText]

theorem take_drop_append_drop (l : List Char) (a b : Nat) (h : a ≤ b) :
    (l.take b).drop a ++ l.drop b = l.drop a := by
  induction l generalizing a b with
  | nil => simp
  | cons c cs ih =>
      cases b with
      | zero =>
          have ha : a = 0 := Nat.le_zero.mp h
          subst ha; simp
      | succ b' =>
          cases a with
          | zero => simp
          | succ a' => simpa using ih a' b' (Nat.succ_le_succ_iff.mp h)

theorem drop_eq_getD_cons (l : List Char) (n : Nat) (h : n < l.length) :
    l.drop n = l.getD n default :: l.drop (n + 1) := by
  induction l generalizing n with
  | nil => simp at h
  | cons c cs ih =>
      cases n with
      | zero => simp
      | succ n' => simpa using ih n' (by simpa using h)

theorem hmLoop_runsText (text : List Char) (indices : List Nat) :
    ∀ (lastIndex : Nat) (matchChars : List Char) (acc : List Run),
      List.Pairwise (· < ·) indices →
      (∀ i ∈ indices, lastIndex ≤ i ∧ i < text.length) →
      runsText (hmLoop text indices lastIndex matchChars acc)
        = runsText acc ++ matchChars ++ text.drop lastIndex := by
  induction indices with
  | nil =>
      intro lastIndex mc acc _ _
      simp only [hmLoop]
      by_cases hmc : mc.isEmpty
      · have hmc' : mc = [] := List.isEmpty_iff.mp hmc
        subst hmc'
        by_cases hlt : lastIndex < text.length
        · simp [hlt, runsText]
        · have hd : text.drop lastIndex = [] := List.drop_eq_nil_of_le (Nat.le_of_not_lt hlt)
          simp [hlt, hd, runsText]
      · by_cases hlt : lastIndex < text.length
        · simp [hmc, hlt, runsText]
        · have hd : text.drop lastIndex = [] := List.drop_eq_nil_of_le (Nat.le_of_not_lt hlt)
          simp [hmc, hlt, hd, runsText]
  | cons index rest ih =>
      intro lastIndex mc acc hp hb
      have hidx := hb index (List.mem_cons_self _ _)
      have hrest : ∀ i ∈ rest, index + 1 ≤ i ∧ i < text.length := by
        intro i hi
        refine ⟨?_, (hb i (List.mem_cons_of_mem _ hi)).2⟩
        have := (List.pairwise_cons.mp hp).1 i hi
        omega
      have hp' := (List.pairwise_cons.mp hp).2
      simp only [hmLoop]
      by_cases hlt : lastIndex < index
      · rw [if_pos hlt]
        rw [ih (index + 1) [text.getD index default] _ hp' hrest]
        have h1 : sliceList text lastIndex index ++ text.drop index = text.drop lastIndex :=
          take_drop_append_drop text lastIndex index (Nat.le_of_lt hlt)
        have h2 := drop_eq_getD_cons text index hidx.2
        have hsplit : text.drop lastIndex
            = sliceList text lastIndex index
              ++ text.getD index default :: text.drop (index + 1) := by
          rw [← h1, h2]
        rw [hsplit]
        by_cases hmc : mc.isEmpty
        · have hmc' : mc = [] := List.isEmpty_iff.mp hmc
          subst hmc'
          simp [runsText]
        · simp [hmc, runsText]
      · rw [if_neg hlt]
        rw [ih (index + 1) (mc ++ [text.getD index default]) acc hp' hrest]
        have heq : index = lastIndex := le_antisymm (Nat.le_of_not_lt hlt) hidx.1
        subst heq
        rw [drop_eq_getD_cons text index hidx.2]
        simp

theorem pairwise_lt_toNat_filter (matchIndices : List Int) (n : Nat)
    (h : List.Pairwise (· < ·) matchIndices) :
    List.Pairwise (· < ·)
      ((matchIndices.filter (fun i => decide (0 ≤ i ∧ i < (n : Int)))).map Int.toNat) := by
  rw [List.pairwise_map]
  have hf := h.filter (fun i => decide (0 ≤ i ∧ i < (n : Int)))
  refine hf.imp_of_mem ?_
  intro a b ha hb hab
  have ha' := List.of_mem_filter ha
  simp only [decide_eq_true_eq] at ha'
  omega

/-- C1 counterexample: on the unsorted index list `[1, 0]` the loop emits
the character at index 0 twice (`"abab"`), so the concatenation of the runs
is not the input text. -/
theorem C1_highlight_roundtrip_cex :
    runsText (highlightMatches ['a', 'b'] [1, 0]) ≠ ['a', 'b'] := by decide

/-- C1 (amended): for every text and every strictly increasing sequence of
integer indices — empty and out-of-range entries still allowed —
concatenating the text of all runs of `highlightMatches text indices`
yields `text` exactly, every character once, in order.  (The claim's
further allowance of duplicate or unsorted index sequences fails, see the
counterexample.) -/
theorem C1_highlight_roundtrip (text : List Char) (matchIndices : List Int)
    (hsorted : List.Pairwise (· < ·) matchIndices) :
    runsText (highlightMatches text matchIndices) = text := by
  simp only [highlightMatches]
  split
  · simp [runsText]
  · split
    · simp [runsText]
    · rw [hmLoop_runsText text _ 0 [] [] (pairwise_lt_toNat_filter _ _ hsorted) ?_]
      · simp [runsText]
      · intro i hi
        rcases List.mem_map.mp hi with ⟨j, hj, rfl⟩
        have := List.of_mem_filter hj
        simp only [decide_eq_true_eq] at this
        exact ⟨Nat.zero_le _, by omega⟩

/-- C1 witness: a concrete strictly increasing index list with a negative
and an out-of-range entry round-trips. -/
theorem C1_highlight_roundtrip_wit :
    runsText (highlightMatches ['a', 'b', 'c'] [-7, 0, 2, 9]) = ['a', 'b', 'c'] :=
  C1_highlight_roundtrip ['a', 'b', 'c'] [-7, 0, 2, 9] (by decide)

theorem lookup_mem {β : Type} (t : List (Char × β)) (c : Char) (v : β)
    (h : t.lookup c = some v) : (c, v) ∈ t := by
  induction t with
  | nil => simp [List.lookup] at h
  | cons p rest ih =>
      obtain ⟨k, w⟩ := p
      rw [List.lookup] at h
      by_cases hc : c == k
      · simp only [hc] at h
        have hk : c = k := by simpa using hc
        have hv : w = v := by simpa using h
        subst hk
        subst hv
        exact List.mem_cons_self _ _
      · simp only [Bool.not_eq_true] at hc
        simp only [hc] at h
        exact List.mem_cons_of_mem _ (ih h)

theorem nfdTable_sound :
    ∀ p ∈ nfdTable, ∀ d ∈ p.2, nfdTable.lookup d = none := by decide

theorem nfdChar_of_mem_nfdChar {c d : Char} (h : d ∈ nfdChar c) : nfdChar d = [d] := by
  unfold nfdChar at h ⊢
  cases hl : nfdTable.lookup c with
  | none =>
      rw [hl] at h
      simp only [List.mem_singleton] at h
      subst h
      rw [hl]
  | some ds =>
      rw [hl] at h
      have hmem := lookup_mem nfdTable c ds hl
      rw [nfdTable_sound (c, ds) hmem d h]

theorem nfd_of_decomposed (l : List Char) (h : ∀ c ∈ l, nfdChar c = [c]) :
    nfd l = l := by
  induction l with
  | nil => rfl
  | cons c cs ih =>
      have hc := h c (List.mem_cons_self _ _)
      have hcs := ih (fun x hx => h x (List.mem_cons_of_mem _ hx))
      simp only [nfd, List.flatMap_cons] at *
      rw [hc, hcs]
      rfl

theorem filter_self_idem (p : Char → Bool) (l : List Char) :
    (l.filter p).filter p = l.filter p := by
  induction l with
  | nil => rfl
  | cons c cs ih =>
      by_cases hc : p c
      · simp [hc, ih]
      · simp [hc, ih]

theorem mem_replaceDiacriticsL_decomposed {l : List Char} {c : Char}
    (h : c ∈ replaceDiacriticsL l) : nfdChar c = [c] := by
  have h1 : c ∈ nfd l := List.mem_of_mem_filter h
  rcases List.mem_flatMap.mp h1 with ⟨c0, _, hc⟩
  exact nfdChar_of_mem_nfdChar hc

theorem replaceDiacriticsL_idem (l : List Char) :
    replaceDiacriticsL (replaceDiacriticsL l) = replaceDiacriticsL l := by
  have hdec : nfd (replaceDiacriticsL l) = replaceDiacriticsL l :=
    nfd_of_decomposed _ (fun c hc => mem_replaceDiacriticsL_decomposed hc)
  show stripCombining (nfd (replaceDiacriticsL l)) = replaceDiacriticsL l
  rw [hdec]
  exact filter_self_idem _ _

/-- C7: the diacritic normaliser is idempotent on every string, and folds
`"café"` to `"cafe"` (with the platform `normalize('NFD')` modelled by the
canonical-decomposition table `nfdTable`). -/
theorem C7_replaceDiacritics_idem (s : String) :
    replaceDiacritics (replaceDiacritics s) = replaceDiacritics s
    ∧ replaceDiacritics "café" = "cafe" := by
  constructor
  · by_cases h0 : s = ""
    · subst h0
      rfl
    · have hs : replaceDiacritics s = ⟨replaceDiacriticsL s.data⟩ := by
        rw [replaceDiacritics, if_neg h0]
      rw [hs]
      by_cases h1 : (⟨replaceDiacriticsL s.data⟩ : String) = ""
      · rw [replaceDiacritics, if_pos h1, h1]
      · rw [replaceDiacritics, if_neg h1]
        show (⟨replaceDiacriticsL (replaceDiacriticsL s.data)⟩ : String) = _
        rw [replaceDiacriticsL_idem]
  · decide

theorem insertScoredDesc_perm (x : Scored α) (l : List (Scored α)) :
    List.Perm (insertScoredDesc x l) (x :: l) := by
  induction l with
  | nil => exact List.Perm.refl _
  | cons y ys ih =>
      rw [insertScoredDesc]
      by_cases hc : y.score ≤ x.score
      · rw [if_pos hc]
      · rw [if_neg hc]
        exact (ih.cons y).trans (List.Perm.swap x y ys)

theorem sortScoredDesc_perm (l : List (Scored α)) :
    List.Perm (sortScoredDesc l) l := by
  induction l with
  | nil => exact List.Perm.refl _
  | cons x xs ih =>
      show List.Perm (insertScoredDesc x (sortScoredDesc xs)) (x :: xs)
      exact (insertScoredDesc_perm x (sortScoredDesc xs)).trans (ih.cons x)

theorem insertScoredDesc_sorted (x : Scored α) (l : List (Scored α))
    (h : List.Pairwise (fun a b => b.score ≤ a.score) l) :
    List.Pairwise (fun a b => b.score ≤ a.score) (insertScoredDesc x l) := by
  induction l with
  | nil => simp [insertScoredDesc]
  | cons y ys ih =>
      rcases List.pairwise_cons.mp h with ⟨hy, hys⟩
      rw [insertScoredDesc]
      by_cases hc : y.score ≤ x.score
      · rw [if_pos hc]
        refine List.pairwise_cons.mpr ⟨?_, h⟩
        intro z hz
        rcases List.mem_cons.mp hz with rfl | hz'
        · exact hc
        · exact le_trans (hy z hz') hc
      · rw [if_neg hc]
        refine List.pairwise_cons.mpr ⟨?_, ih hys⟩
        intro z hz
        have hz2 := (insertScoredDesc_perm x ys).mem_iff.mp hz
        rcases List.mem_cons.mp hz2 with rfl | hz'
        · exact le_of_lt (lt_of_not_le hc)
        · exact hy z hz'

theorem sortScoredDesc_sorted (l : List (Scored α)) :
    List.Pairwise (fun a b => b.score ≤ a.score) (sortScoredDesc l) := by
  induction l with
  | nil => simp [sortScoredDesc]
  | cons x xs ih =>
      show List.Pairwise _ (insertScoredDesc x (sortScoredDesc xs))
      exact insertScoredDesc_sorted x _ ih

theorem filter_insertScoredDesc (x : Scored α) (l : List (Scored α)) (sc : Rat) :
    (insertScoredDesc x l).filter (fun e => decide (e.score = sc))
      = if x.score = sc
        then x :: l.filter (fun e => decide (e.score = sc))
        else l.filter (fun e => decide (e.score = sc)) := by
  induction l with
  | nil =>
      by_cases hx : x.score = sc
      · simp [insertScoredDesc, hx]
      · simp [insertScoredDesc, hx]
  | cons y ys ih =>
      rw [insertScoredDesc]
      by_cases hc : y.score ≤ x.score
      · rw [if_pos hc]
        by_cases hx : x.score = sc
        · simp [List.filter_cons, hx]
        · simp [List.filter_cons, hx]
      · have hyx : x.score < y.score := lt_of_not_le hc
        rw [if_neg hc]
        by_cases hx : x.score = sc
        · have hy : ¬ (y.score = sc) := by
            intro hy
            rw [hx] at hyx
            rw [hy] at hyx
            exact lt_irrefl _ hyx
          simp [List.filter_cons, hy, ih, hx]
        · simp [List.filter_cons, ih, hx]

theorem filter_sortScoredDesc (l : List (Scored α)) (sc : Rat) :
    (sortScoredDesc l).filter (fun e => decide (e.score = sc))
      = l.filter (fun e => decide (e.score = sc)) := by
  induction l with
  | nil => rfl
  | cons x xs ih =>
      show (insertScoredDesc x (sortScoredDesc xs)).filter _ = _
      rw [filter_insertScoredDesc]
      by_cases hx : x.score = sc
      · simp [List.filter_cons, hx, ih]
      · simp [List.filter_cons, hx, ih]

theorem scoreItem_item_eq {p : FilterProps α} {q : String} {x : α} {e : Scored α}
    (h : scoreItem p q x = some e) : e.item = x := by
  unfold scoreItem at h
  cases hm : p.matcher (keyFor p x) q with
  | none => simp [hm] at h
  | some r =>
      simp only [hm] at h
      split at h
      · cases h
        rfl
      · cases h

/-- C5: for every filter pass with a non-empty query the returned items are
the item projections of the stably descending-sorted `scoredItems`; that
sorted list is ordered by post-modifier score descending, and for every
score value the equal-score entries appear exactly in their input order
(JS `Array.prototype.sort` is stable; `sortScoredDesc` is the unique
stable sort for the comparator `(a, b) => b.score - a.score`). -/
theorem C5_stable_sort (p : FilterProps α) (items : List α) (query : String)
    (hq : ¬ query.length = 0) :
    (fuzzyFilter p items query).1
        = (sortScoredDesc (fuzzyFilterScored p items (processedQuery p query))).map Scored.item
    ∧ List.Pairwise (fun a b => b.score ≤ a.score)
        (sortScoredDesc (fuzzyFilterScored p items (processedQuery p query)))
    ∧ ∀ sc : Rat,
        (sortScoredDesc (fuzzyFilterScored p items (processedQuery p query))).filter
            (fun e => decide (e.score = sc))
          = (fuzzyFilterScored p items (processedQuery p query)).filter
              (fun e => decide (e.score = sc)) := by
  refine ⟨?_, sortScoredDesc_sorted _, fun sc => filter_sortScoredDesc _ sc⟩
  rw [fuzzyFilter, if_neg hq]

/-- C5 witness at a ground instance (both items score 2 under
`demoMatcher`, so the equal-score filter test is non-trivial). -/
theorem C5_stable_sort_wit :
    (sortScoredDesc (fuzzyFilterScored demoProps ["ab", "cd"] (processedQuery demoProps "x"))).filter
        (fun e => decide (e.score = (2 : Rat)))
      = (fuzzyFilterScored demoProps ["ab", "cd"] (processedQuery demoProps "x")).filter
          (fun e => decide (e.score = (2 : Rat))) :=
  (C5_stable_sort demoProps ["ab", "cd"] "x" (by decide)).2.2 2

/-- C3: among the items the matcher produces a result for, an item is in the
filtered result set exactly when its post-modifier score strictly exceeds
the threshold; a score equal to the threshold excludes it. -/
theorem C3_threshold_strict (p : FilterProps α) (items : List α) (query : String)
    (item : α) (sc : Rat)
    (hq : ¬ query.length = 0) (hmem : item ∈ items)
    (hscore : postScore p (processedQuery p query) item = some sc) :
    item ∈ (fuzzyFilter p items query).1 ↔ p.filterThreshold < sc := by
  rw [fuzzyFilter, if_neg hq]
  show item ∈ (sortScoredDesc (fuzzyFilterScored p items (processedQuery p query))).map
      Scored.item ↔ _
  rw [((sortScoredDesc_perm (fuzzyFilterScored p items (processedQuery p query))).map
      Scored.item).mem_iff]
  rcases Option.map_eq_some'.mp hscore with ⟨r, hm, hf⟩
  constructor
  · intro hout
    rcases List.mem_map.mp hout with ⟨e, he, hei⟩
    rcases List.mem_filterMap.mp he with ⟨x, _, hsx⟩
    have hxe : e.item = x := scoreItem_item_eq hsx
    rw [hei] at hxe
    rw [← hxe] at hsx
    simp only [scoreItem, hm] at hsx
    split at hsx
    · rename_i hgt
      rw [hf] at hgt
      exact hgt
    · exact Option.noConfusion hsx
  · intro hth
    refine List.mem_map.mpr ⟨⟨item, sc, r.2⟩, List.mem_filterMap.mpr ⟨item, hmem, ?_⟩, rfl⟩
    simp only [scoreItem, hm]
    rw [hf, if_pos hth]

/-- C3 witness: with `demoMatcher` the item `"ab"` scores 2 against query
`"a"`, and 2 exceeds the default threshold 0, so it is in the result. -/
theorem C3_threshold_strict_wit :
    ("ab" ∈ (fuzzyFilter demoProps ["ab", "z"] "a").1 ↔ demoProps.filterThreshold < (2 : Rat)) :=
  C3_threshold_strict demoProps ["ab", "z"] "a" "ab" 2 (by decide) (by decide) (by decide)

theorem resolvedOk_some (len : Nat) (j : Int)
    (h0 : len = 0 → (j = 0 ∨ j = -1)) (h1 : len ≠ 0 → (0 ≤ j ∧ j < (len : Int))) :
    resolvedOk len (some j) := by
  show if len = 0 then j = 0 ∨ j = -1 else 0 ≤ j ∧ j < (len : Int)
  by_cases h : len = 0
  · rw [if_pos h]
    exact h0 h
  · rw [if_neg h]
    exact h1 h

theorem resolvedOk_resolveIndex (len : Nat) (i : Option Int) :
    resolvedOk len (resolveIndex len i) := by
  cases i with
  | none => trivial
  | some i =>
      rw [resolveIndex]
      by_cases h1 : i ≥ (len : Int)
      · rw [if_pos h1]
        exact resolvedOk_some len 0 (fun _ => Or.inl rfl) (fun h => ⟨le_refl 0, by omega⟩)
      · rw [if_neg h1]
        by_cases h2 : i < 0
        · rw [if_pos h2]
          exact resolvedOk_some len ((len : Int) - 1) (fun h => by omega) (fun h => by omega)
        · rw [if_neg h2]
          exact resolvedOk_some len i (fun h => by omega) (fun h => by omega)

/-- C2 counterexample: on an empty result set, `selectIndex(5)` resolves the
index to `0` (because `5 >= 0 = length` wraps to `0`), so the selection is
neither "none" nor inside `[0, length)`. -/
theorem C2_selection_invariant_cex :
    (selectIndex ⟨false⟩ ⟨([] : List Nat), none⟩ (some 5)).1.selectionIndex = some 0
    ∧ ¬ selectionInRange (selectIndex ⟨false⟩ ⟨([] : List Nat), none⟩ (some 5)).1 := by
  constructor
  · rfl
  · intro h
    have h' : (0 : Int) ≤ 0 ∧ (0 : Int) < ((([] : List Nat)).length : Int) := h
    simp at h'

/-- C2 (amended): after every selection operation and after every filter
pass, the selection index is "none", or lies in `[0, length)` when the
result set is non-empty; on an empty result set a `selectIndex` call with a
defined requested index sets it to `0` (request `>= 0`) or `-1`
(request `< 0`) — not to "none" — and a failed `selectItem` leaves the
state unchanged. -/
theorem C2_selection_invariant_amended [DecidableEq α] (sp : SelProps)
    (cp : ComputeProps α) (prior s : SLState α) (i : Option Int) (j : Int)
    (item : α) (propsItems : List α) (query : String) :
    selectionInvariant (selectIndex sp s i).1
    ∧ selectionInvariant (selectNext sp s).1
    ∧ selectionInvariant (selectPrevious sp s).1
    ∧ selectionInvariant (selectFirst sp s).1
    ∧ selectionInvariant (selectLast sp s).1
    ∧ selectionInvariant (selectNone sp s).1
    ∧ ((selectItem sp s item).1.1 = s ∨ selectionInvariant (selectItem sp s item).1.1)
    ∧ selectionInvariant (computeItems cp prior propsItems query).1
    ∧ (s.items = [] →
        (selectIndex sp s (some j)).1.selectionIndex
          = some (if 0 ≤ j then 0 else -1)) := by
  have key : ∀ (q : SelProps) (s' : SLState α) (k : Option Int),
      selectionInvariant (selectIndex q s' k).1 := by
    intro q s' k
    exact resolvedOk_resolveIndex s'.items.length k
  refine ⟨key sp s i, ?_, ?_, key sp s (some 0), key sp s _, key sp s none, ?_, ?_, ?_⟩
  · cases hs : s.selectionIndex with
    | none =>
        simp only [selectNext, hs]
        exact key sp s (some 0)
    | some v =>
        simp only [selectNext, hs]
        exact key sp s (some (v + 1))
  · cases hs : s.selectionIndex with
    | none =>
        simp only [selectPrevious, hs]
        exact key sp s _
    | some v =>
        simp only [selectPrevious, hs]
        exact key sp s (some (v - 1))
  · simp only [selectItem]
    by_cases hidx : jsIndexOf s.items item = -1
    · rw [if_pos hidx]
      left
      rfl
    · rw [if_neg hidx]
      right
      exact key sp s _
  · exact key ⟨cp.hasDidChangeSelection⟩ _ (some cp.initialSelectionIndex)
  · intro h
    show resolveIndex s.items.length (some j) = _
    rw [h, resolveIndex]
    simp only [List.length_nil, Nat.cast_zero]
    by_cases h0 : 0 ≤ j
    · rw [if_pos (show j ≥ (0 : Int) from h0), if_pos h0]
    · rw [if_neg (show ¬ j ≥ (0 : Int) from h0),
        if_pos (show j < (0 : Int) from lt_of_not_ge h0), if_neg h0]
      norm_num

/-- C6: on a result set of length N, `selectIndex` maps every requested
index `>= N` to 0 and every negative requested index to `N - 1`
(so `selectIndex(N)` selects 0 and `selectIndex(-1)` selects `N - 1`), and
`selectNext` from selection index `N - 1` wraps to 0. -/
theorem C6_selection_wraparound (p : SelProps) (s : SLState α) (i j : Int)
    (hne : s.items ≠ [])
    (hi : (s.items.length : Int) ≤ i) (hj : j < 0) :
    (selectIndex p s (some i)).1.selectionIndex = some 0
    ∧ (selectIndex p s (some j)).1.selectionIndex = some ((s.items.length : Int) - 1)
    ∧ (selectNext p ⟨s.items, some ((s.items.length : Int) - 1)⟩).1.selectionIndex
        = some 0 := by
  refine ⟨?_, ?_, ?_⟩
  · show resolveIndex s.items.length (some i) = some 0
    rw [resolveIndex, if_pos (show i ≥ (s.items.length : Int) from hi)]
  · show resolveIndex s.items.length (some j) = some ((s.items.length : Int) - 1)
    rw [resolveIndex, if_neg (show ¬ j ≥ (s.items.length : Int) by omega), if_pos hj]
  · show resolveIndex s.items.length (some ((s.items.length : Int) - 1 + 1)) = some 0
    rw [resolveIndex,
      if_pos (show (s.items.length : Int) - 1 + 1 ≥ (s.items.length : Int) by omega)]

/-- C6 witness on the three-item ground state with requests 3 and -1. -/
theorem C6_selection_wraparound_wit :
    (selectIndex demoSel demoState (some 3)).1.selectionIndex = some 0
    ∧ (selectIndex demoSel demoState (some (-1))).1.selectionIndex
        = some ((demoState.items.length : Int) - 1)
    ∧ (selectNext demoSel
        ⟨demoState.items, some ((demoState.items.length : Int) - 1)⟩).1.selectionIndex
        = some 0 :=
  C6_selection_wraparound demoSel demoState 3 (-1) (by decide) (by decide) (by decide)

/-- C10: `selectIndex` emits a `didChangeSelection` notification (carrying
`getSelectedItem()`) on every call whose resolved index is defined and for
which the notifier prop is configured — with no comparison against the
previous selection index. -/
theorem C10_notify_unconditional (p : SelProps) (s : SLState α) (index : Option Int)
    (hr : (resolveIndex s.items.length index).isSome = true)
    (hp : p.hasDidChangeSelection = true) :
    (selectIndex p s index).2 = [getSelectedItem (selectIndex p s index).1] := by
  simp [selectIndex, hr, hp]

/-- C10 witness: re-selecting the already selected index 1 still notifies. -/
theorem C10_notify_unconditional_wit :
    (selectIndex demoSelNotify ⟨["a", "b"], some 1⟩ (some 1)).2
      = [getSelectedItem (selectIndex demoSelNotify ⟨["a", "b"], some 1⟩ (some 1)).1] :=
  C10_notify_unconditional demoSelNotify ⟨["a", "b"], some 1⟩ (some 1) (by decide) (by decide)

theorem jsIndexOf_spec [DecidableEq α] (l : List α) (a : α) :
    (jsIndexOf l a = -1 ∧ a ∉ l)
    ∨ (0 ≤ jsIndexOf l a ∧ jsIndexOf l a < (l.length : Int)
        ∧ l.get? (jsIndexOf l a).toNat = some a) := by
  induction l with
  | nil => exact Or.inl ⟨rfl, List.not_mem_nil a⟩
  | cons x xs ih =>
      simp only [jsIndexOf]
      by_cases hx : x = a
      · rw [if_pos hx]
        subst hx
        right
        refine ⟨le_refl 0, ?_, rfl⟩
        simp only [List.length_cons]
        omega
      · rw [if_neg hx]
        rcases ih with ⟨h1, h2⟩ | ⟨h1, h2, h3⟩
        · left
          rw [h1, if_pos rfl]
          refine ⟨rfl, ?_⟩
          intro hmem
          rcases List.mem_cons.mp hmem with rfl | hmem'
          · exact hx rfl
          · exact h2 hmem'
        · right
          have hne : ¬ jsIndexOf xs a = -1 := by omega
          rw [if_neg hne]
          refine ⟨by omega, ?_, ?_⟩
          · simp only [List.length_cons]
            omega
          · have htn : (jsIndexOf xs a + 1).toNat = (jsIndexOf xs a).toNat + 1 := by omega
            rw [htn]
            simpa using h3

theorem resolveIndex_inbounds (len : Nat) (i : Int) (h0 : 0 ≤ i) (h1 : i < (len : Int)) :
    resolveIndex len (some i) = some i := by
  rw [resolveIndex, if_neg (show ¬ i ≥ (len : Int) by omega),
    if_neg (show ¬ i < 0 by omega)]

/-- C8: `selectItem(item)` on an item absent from the current result set
reports the "does not exist" error and leaves both state and notifications
untouched; on a present item it reports no error and selects the item's
(first) index, whose entry is the item itself. -/
theorem C8_selectItem_not_found [DecidableEq α] (p : SelProps) (s : SLState α) (item : α) :
    if item ∈ s.items then
      (selectItem p s item).2 = none
      ∧ (selectItem p s item).1.1.items = s.items
      ∧ (selectItem p s item).1.1.selectionIndex = some (jsIndexOf s.items item)
      ∧ getSelectedItem (selectItem p s item).1.1 = some item
    else
      (selectItem p s item).1 = (s, []) ∧ (selectItem p s item).2.isSome := by
  rcases jsIndexOf_spec s.items item with ⟨h1, h2⟩ | ⟨h1, h2, h3⟩
  · rw [if_neg h2]
    simp only [selectItem]
    rw [if_pos h1]
    exact ⟨rfl, rfl⟩
  · have hmem : item ∈ s.items := List.get?_mem h3
    rw [if_pos hmem]
    simp only [selectItem]
    have hne : ¬ jsIndexOf s.items item = -1 := by omega
    rw [if_neg hne]
    refine ⟨rfl, rfl, ?_, ?_⟩
    · show resolveIndex s.items.length (some (jsIndexOf s.items item)) = _
      exact resolveIndex_inbounds _ _ h1 h2
    · show getSelectedItem
          ⟨s.items, resolveIndex s.items.length (some (jsIndexOf s.items item))⟩ = some item
      rw [resolveIndex_inbounds _ _ h1 h2]
      show jsIndex s.items (jsIndexOf s.items item) = some item
      rw [jsIndex, if_neg (show ¬ jsIndexOf s.items item < 0 by omega)]
      exact h3

theorem fuzzyFilter_empty_query (p : FilterProps α) (items : List α) :
    fuzzyFilter p items "" = (items, []) := by
  rw [fuzzyFilter, if_pos (by decide)]

/-- C4: filtering with the empty query short-circuits — `fuzzyFilter`
returns the items unchanged (for every matcher, so no scoring happens) and
populates no match-index cache entries; after the pass the selection index
is re-derived from the configured `initialSelectionIndex` via the
`selectIndex` wrap (in particular it equals that index whenever it is in
range), and with no order comparator and no `maxResults` cap the pass
leaves `this.items` equal to `props.items`. -/
theorem C4_empty_query_identity (fp : FilterProps α) (cp : ComputeProps α)
    (prior : SLState α) (items propsItems : List α) :
    fuzzyFilter fp items "" = (items, [])
    ∧ (computeItems cp prior propsItems "").2.1 = []
    ∧ (computeItems cp prior propsItems "").1.selectionIndex
        = resolveIndex
            (applyMaxResults cp.maxResults (applyOrder cp.order propsItems)).length
            (some cp.initialSelectionIndex)
    ∧ (cp.order = none → cp.maxResults = none →
        (computeItems cp prior propsItems "").1.items = propsItems) := by
  refine ⟨fuzzyFilter_empty_query fp items, ?_, ?_, ?_⟩
  · show (fuzzyFilter cp.toFilterProps propsItems "").2 = []
    rw [fuzzyFilter_empty_query]
  · show resolveIndex
        (applyMaxResults cp.maxResults
          (applyOrder cp.order (fuzzyFilter cp.toFilterProps propsItems "").1)).length
        (some cp.initialSelectionIndex) = _
    rw [fuzzyFilter_empty_query]
  · intro ho hm
    show applyMaxResults cp.maxResults
        (applyOrder cp.order (fuzzyFilter cp.toFilterProps propsItems "").1) = propsItems
    rw [ho, hm, fuzzyFilter_empty_query]
    rfl

theorem length_allocA (st : Store α) (l : List α) :
    (allocA st l).1.arrays.length = st.arrays.length + 1 := by
  simp [allocA]

theorem readA_allocA (st : Store α) (l : List α) (r : Nat) (h : r < st.arrays.length) :
    readA (allocA st l).1 r = readA st r := by
  simp only [readA, allocA]
  rw [List.getD_eq_getD_get?, List.getD_eq_getD_get?, List.get?_append h]

theorem get?_set_ne_aux (l : List α) (w r : Nat) (x : α) (h : w ≠ r) :
    (l.set w x).get? r = l.get? r := by
  induction l generalizing w r with
  | nil => simp
  | cons c cs ih =>
      cases w with
      | zero =>
          cases r with
          | zero => exact absurd rfl h
          | succ r' => simp
      | succ w' =>
          cases r with
          | zero => simp
          | succ r' => simpa using ih w' r' (by omega)

theorem readA_writeA_ne (st : Store α) (w : Nat) (l : List α) (r : Nat) (h : w ≠ r) :
    readA (writeA st w l) r = readA st r := by
  simp only [readA, writeA]
  rw [List.getD_eq_getD_get?, List.getD_eq_getD_get?, get?_set_ne_aux _ _ _ _ h]

/-- C9: a filter pass never mutates the caller's `props.items` array: the
pass sorts and truncates only the `slice()` copy (or the fresh array the
filter built), so reading `props.items`' reference after
`computeItemsStore` yields exactly what it held before. -/
theorem C9_props_items_frame (p : ComputeProps α) (st : Store α) (propsRef : Nat)
    (query : String) (h : propsRef < st.arrays.length) :
    readA (computeItemsStore p st propsRef query).1 propsRef = readA st propsRef := by
  simp only [computeItemsStore]
  set b := (if query.length = 0 then allocA st (readA st propsRef)
      else allocA (allocA st (readA st propsRef)).1
        (fuzzyFilter p.toFilterProps (readA st propsRef) query).1) with hbdef
  have hb_read : readA b.1 propsRef = readA st propsRef := by
    rw [hbdef]
    split
    · exact readA_allocA st _ propsRef h
    · rw [readA_allocA _ _ propsRef (by rw [length_allocA]; omega)]
      exact readA_allocA st _ propsRef h
  have hb_len : st.arrays.length < b.1.arrays.length := by
    rw [hbdef]
    split
    · rw [length_allocA]
      omega
    · rw [length_allocA, length_allocA]
      omega
  have hb_ref : st.arrays.length ≤ b.2 := by
    rw [hbdef]
    split
    · exact le_refl _
    · show st.arrays.length ≤ (allocA st (readA st propsRef)).1.arrays.length
      rw [length_allocA]
      omega
  set c := (match p.order with
      | some cmp => (writeA b.1 b.2 (sortCmp cmp (readA b.1 b.2)), b.2)
      | none => b) with hcdef
  have hc_read : readA c.1 propsRef = readA st propsRef := by
    rw [hcdef]
    cases p.order with
    | some cmp =>
        show readA (writeA b.1 b.2 _) propsRef = _
        rw [readA_writeA_ne _ _ _ _ (by omega)]
        exact hb_read
    | none => exact hb_read
  have hc_len : st.arrays.length < c.1.arrays.length := by
    rw [hcdef]
    cases p.order with
    | some cmp =>
        show st.arrays.length < (writeA b.1 b.2 _).arrays.length
        simp only [writeA, List.length_set]
        exact hb_len
    | none => exact hb_len
  cases p.maxResults with
  | none => exact hc_read
  | some m =>
      show readA (if m = 0 then c else allocA c.1 ((readA c.1 c.2).take m)).1 propsRef
          = readA st propsRef
      by_cases hm : m = 0
      · rw [if_pos hm]
        exact hc_read
      · rw [if_neg hm]
        rw [readA_allocA _ _ propsRef (by omega)]
        exact hc_read

/-- C9 witness on a one-array store holding `props.items = ["a", "b"]`. -/
theorem C9_props_items_frame_wit :
    readA (computeItemsStore demoCompute ⟨[["a", "b"]]⟩ 0 "q").1 0
      = readA (⟨[["a", "b"]]⟩ : Store String) 0 :=
  C9_props_items_frame demoCompute ⟨[["a", "b"]]⟩ 0 "q" (by decide)
